import Mathlib

/-!
Shallow embedding of `loglogbeta.go` (package loglogbeta), a LogLog-Beta
cardinality sketch with 2^14 eight-bit registers.

Modelling conventions:
* `uint64` values are natural numbers reduced modulo `2^64` at the points
  where the Go type system guarantees the reduction (function parameters,
  wrapping shifts); `uint8` register contents are plain naturals (the code
  keeps them in `[0, 51]`, so no 8-bit wrap ever occurs and none is modelled).
* `float64` arithmetic is modelled over the real numbers `ℝ`; summation
  order (irrelevant over `ℝ`) replaces the Go loop order.
* External dependencies are not part of the repository: `bits.Clz`
  (github.com/dgryski/go-bits) is embedded as `clz64`, `metro.Hash64`
  (github.com/dgryski/go-metro) is abstracted as a hash-function parameter,
  and `encoding/gob` is abstracted as an encoder/decoder pair; gob's
  documented decode-of-encode guarantee is taken as a hypothesis where a
  claim needs it.
-/

namespace Loglogbeta

/-- Go: `precision = 14`. -/
def precision : Nat := 14

/-- Go: `m = uint32(1 << precision)`, the number of registers. -/
def m : Nat := 1 <<< precision

/-- Go: `maxX = math.MaxUint64 >> max` where `max = 64 - precision`. -/
def maxX : Nat := (2 ^ 64 - 1) >>> (64 - precision)

/-- Go: `version = 1`. -/
def version : Nat := 1

/-- Modelled from the spec: `bits.Clz` of github.com/dgryski/go-bits, the
count of leading zero bits of a 64-bit word (64 for input 0). -/
def clz64 (x : Nat) : Nat := 64 - Nat.size x

/-- Go: `beta(ez float64) float64`, the degree-7 bias-correction polynomial
in `zl = ln(ez + 1)`. -/
noncomputable def beta (ez : ℝ) : ℝ :=
  let zl := Real.log (ez + 1);
  -0.370393911 * ez +
    0.070471823 * zl +
    0.17393686 * zl ^ 2 +
    0.16339839 * zl ^ 3 +
    -0.09237745 * zl ^ 4 +
    0.03738027 * zl ^ 5 +
    -0.005384159 * zl ^ 6 +
    0.00042419 * zl ^ 7

/-- Go: `alpha(m float64) float64` — three special-cased small sizes, then
the asymptotic formula. (The Go parameter is named `m`; renamed `x` here to
avoid clashing with the constant `m`.) -/
noncomputable def alpha (x : ℝ) : ℝ :=
  if x = 16 then 0.673
  else if x = 32 then 0.697
  else if x = 64 then 0.709
  else 0.7213 / (1 + 1.079 / x)

/-- Go: `regSumAndZeros(registers [m]uint8) (float64, float64)` — returns
`(sum of 2^-registers[i], count of zero registers)`. The Go loop accumulates
in index order; over `ℝ` the order is irrelevant, so a `Finset` sum/count is
used. -/
noncomputable def regSumAndZeros (registers : Fin m → Nat) : ℝ × ℝ :=
  (∑ i, 1 / (2 : ℝ) ^ (registers i),
   ((Finset.univ.filter fun i => registers i = 0).card : ℝ))

/-- Go: `getPosVal(x uint64) (uint64, uint8)` — register index `k` (top
`precision` bits) and rank `val = clz((x << precision) ^ maxX) + 1`.
The inner `% 2 ^ 64` models the wrap of the 64-bit left shift, the outer
`let` the `uint64` parameter type; `bits.Clz` of a 64-bit word is at most
64, so the Go `uint8` conversion of it is the identity and is not modelled. -/
def getPosVal (x : Nat) : Nat × Nat :=
  let x := x % 2 ^ 64
  let val := clz64 (((x <<< precision) % 2 ^ 64) ^^^ maxX) + 1
  let k := x >>> (64 - precision)
  (k, val)

/-- Go: `type LogLogBeta struct { registers [m]uint8; alpha float64 }`. -/
structure LogLogBeta where
  registers : Fin m → Nat
  alpha : ℝ

/-- Go: `type savedLLB struct { Registers [m]uint8; Alpha float64; Version int }`. -/
structure savedLLB where
  Registers : Fin m → Nat
  Alpha : ℝ
  Version : Nat

/-- Go: `New() *LogLogBeta` — zero registers, `alpha(float64(m))`. -/
noncomputable def New : LogLogBeta :=
  ⟨fun _ => 0, alpha (m : ℝ)⟩

/-- Go: `(llb *LogLogBeta) AddHash(x uint64)` — writes `val` into register
`k` when it exceeds the current value. In-place mutation is modelled by
returning the updated sketch. -/
def AddHash (llb : LogLogBeta) (x : Nat) : LogLogBeta :=
  ⟨fun i => if (i : Nat) = (getPosVal x).1 then
              (if llb.registers i < (getPosVal x).2 then (getPosVal x).2
               else llb.registers i)
            else llb.registers i,
   llb.alpha⟩

/-- Go: `(llb *LogLogBeta) Add(value []byte)` — hashes the value with
`metro.Hash64(value, 1337)` and calls `AddHash`. The external metro hash
(with its fixed seed folded in) is abstracted as the parameter `hash`. -/
def Add (hash : List Nat → Nat) (llb : LogLogBeta) (value : List Nat) : LogLogBeta :=
  AddHash llb (hash value)

/-- Go: `(llb *LogLogBeta) Cardinality() uint64` — the estimator
`uint64(alpha * m * (m - ez) / (beta(ez) + sum))`; the float-to-uint64
conversion is modelled as `Int.toNat ∘ Int.floor` (truncation, which agrees
with floor on the non-negative reals). -/
noncomputable def Cardinality (llb : LogLogBeta) : Nat :=
  (⌊llb.alpha * (m : ℝ) * ((m : ℝ) - (regSumAndZeros llb.registers).2) /
      (beta (regSumAndZeros llb.registers).2 + (regSumAndZeros llb.registers).1)⌋).toNat

/-- Go: `(llb *LogLogBeta) Merge(other *LogLogBeta)` — register-wise max
into the receiver. In-place mutation of the receiver is modelled by
returning its updated state. -/
def Merge (llb other : LogLogBeta) : LogLogBeta :=
  ⟨fun i => if llb.registers i < other.registers i then other.registers i
            else llb.registers i,
   llb.alpha⟩

/-- The post-call states of both sketches involved in `Merge`: the Go method
mutates only the receiver and merely reads `other`, so the pair of states
after the call is `(Merge llb other, other)`. -/
def MergeStates (llb other : LogLogBeta) : LogLogBeta × LogLogBeta :=
  (Merge llb other, other)

/-- Go: `(llb *LogLogBeta) MarshalBinary() (data []byte, err error)` — gob
encoding of `savedLLB{Version: version, Alpha: llb.alpha, Registers:
llb.registers}`. The gob encoder is abstracted as `enc` into an arbitrary
byte-sequence type `B`. -/
def MarshalBinary {B : Type} (enc : savedLLB → B) (llb : LogLogBeta) : B :=
  enc ⟨llb.registers, llb.alpha, version⟩

/-- Go: `(llb *LogLogBeta) UnmarshalBinary(data []byte) error` — gob-decodes
a `savedLLB`; on error returns it with the receiver untouched, otherwise
installs the decoded registers and alpha. The gob decoder is abstracted as
`dec`; the result pairs the returned error (if any) with the receiver's
post-call state. -/
def UnmarshalBinary {B : Type} (dec : B → Except String savedLLB)
    (llb : LogLogBeta) (data : B) : Option String × LogLogBeta :=
  match dec data with
  | Except.error e => (some e, llb)
  | Except.ok sllb => (none, ⟨sllb.Registers, sllb.Alpha⟩)

/-- The estimator exactly as the specification words it: `floor(alpha * m *
(m - ez) / (beta(ez) + sum))` truncated to an unsigned integer, with
`sum = Σ 2^(-registers[i])`, `ez` the count of zero registers, `m = 16384`,
and `beta` the degree-7 polynomial with the spec's eight coefficients. -/
noncomputable def cardinalitySpec (llb : LogLogBeta) : Nat :=
  let sum : ℝ := ∑ i, (2 : ℝ) ^ (-(llb.registers i : ℤ))
  let ez : ℝ := ((Finset.univ.filter fun i => llb.registers i = 0).card : ℝ)
  let zl : ℝ := Real.log (ez + 1);
  let betaEz : ℝ :=
    -0.370393911 * ez + 0.070471823 * zl + 0.17393686 * zl ^ 2 +
      0.16339839 * zl ^ 3 + -0.09237745 * zl ^ 4 + 0.03738027 * zl ^ 5 +
      -0.005384159 * zl ^ 6 + 0.00042419 * zl ^ 7
  (⌊llb.alpha * 16384 * (16384 - ez) / (betaEz + sum)⌋).toNat

/-! ### Helper lemmas -/

lemma m_eq : m = 16384 := by decide

lemma maxX_eq : maxX = 2 ^ 14 - 1 := by decide

lemma getPosVal_fst_lt (x : Nat) : (getPosVal x).1 < m := by
  unfold getPosVal
  dsimp only
  rw [m_eq]
  show (x % 2 ^ 64) >>> (64 - precision) < 16384
  rw [Nat.shiftRight_eq_div_pow]
  have hx : x % 2 ^ 64 < 2 ^ 64 := Nat.mod_lt _ (by norm_num)
  rw [Nat.div_lt_iff_lt_mul (by norm_num [precision] : 0 < 2 ^ (64 - precision))]
  calc x % 2 ^ 64 < 2 ^ 64 := hx
    _ ≤ 16384 * 2 ^ (64 - precision) := by norm_num [precision]

lemma getPosVal_snd_le (x : Nat) : (getPosVal x).2 ≤ 51 := by
  unfold getPosVal
  dsimp only
  set y := (((x % 2 ^ 64) <<< precision) % 2 ^ 64) ^^^ maxX with hy
  have ha : ((((x % 2 ^ 64) <<< precision) % 2 ^ 64)).testBit 13 = false := by
    simp only [Nat.testBit_mod_two_pow, Nat.testBit_shiftLeft]
    norm_num [precision]
  have hmx : maxX.testBit 13 = true := by decide
  have hbit : y.testBit 13 = true := by
    rw [hy, Nat.testBit_xor, ha, hmx]
    rfl
  have h2 : 2 ^ 13 ≤ y := by
    by_contra hlt
    push_neg at hlt
    have hfalse := Nat.testBit_eq_false_of_lt hlt
    rw [hbit] at hfalse
    exact Bool.noConfusion hfalse
  have h3 : 13 < Nat.size y := Nat.lt_size.mpr h2
  show clz64 y + 1 ≤ 51
  unfold clz64
  omega

/-! ### Claim theorems -/

/-- C3: Merge is commutative and idempotent at the register level: the
register array of `Merge A B` equals that of `Merge B A`, and `Merge A A`
leaves A's register array unchanged. -/
theorem merge_comm_idem :
    (∀ A B (i : Fin m), (Merge A B).registers i = (Merge B A).registers i) ∧
    (∀ A (i : Fin m), (Merge A A).registers i = A.registers i) := by
  constructor
  · intro A B i
    unfold Merge
    dsimp only
    split_ifs <;> omega
  · intro A i
    unfold Merge
    dsimp only
    split_ifs <;> omega

/-- C4: every register value is non-decreasing under each single `AddHash`,
`Add`, or `Merge` call. -/
theorem registers_monotone :
    (∀ llb x (i : Fin m), llb.registers i ≤ (AddHash llb x).registers i) ∧
    (∀ hash llb value (i : Fin m),
      llb.registers i ≤ (Add hash llb value).registers i) ∧
    (∀ A B (i : Fin m), A.registers i ≤ (Merge A B).registers i) := by
  refine ⟨?_, ?_, ?_⟩
  · intro llb x i
    unfold AddHash
    dsimp only
    split_ifs <;> omega
  · intro hash llb value i
    unfold Add AddHash
    dsimp only
    split_ifs <;> omega
  · intro A B i
    unfold Merge
    dsimp only
    split_ifs <;> omega

/-- C10: Merge does not modify its argument: the post-call state of `other`
has the same registers and alpha as before (only the receiver changes). -/
theorem merge_frame (A B : LogLogBeta) :
    (MergeStates A B).1 = Merge A B ∧
    (MergeStates A B).2.registers = B.registers ∧
    (MergeStates A B).2.alpha = B.alpha :=
  ⟨rfl, rfl, rfl⟩

/-- C2: for any gob codec whose decode inverts its encode (gob's documented
guarantee), `UnmarshalBinary` applied to the output of `MarshalBinary` on a
sketch `llb` succeeds and yields a sketch whose registers and alpha are
identical to `llb`'s, whatever the receiver's prior state. -/
theorem marshal_unmarshal_roundtrip {B : Type} (enc : savedLLB → B)
    (dec : B → Except String savedLLB)
    (hgob : ∀ s, dec (enc s) = Except.ok s) (llb0 llb : LogLogBeta) :
    (UnmarshalBinary dec llb0 (MarshalBinary enc llb)).1 = none ∧
    (UnmarshalBinary dec llb0 (MarshalBinary enc llb)).2.registers = llb.registers ∧
    (UnmarshalBinary dec llb0 (MarshalBinary enc llb)).2.alpha = llb.alpha := by
  unfold UnmarshalBinary MarshalBinary
  rw [hgob]
  exact ⟨rfl, rfl, rfl⟩

/-- Witness for C2: the identity codec on `savedLLB` satisfies the
round-trip hypothesis, and the round trip restores `New`'s state. -/
theorem marshal_unmarshal_roundtrip_witness :
    (∀ s : savedLLB, (Except.ok s : Except String savedLLB) = Except.ok s) ∧
    ((UnmarshalBinary (fun s => Except.ok s) New (MarshalBinary (fun s => s) New)).1 = none ∧
     (UnmarshalBinary (fun s => Except.ok s) New (MarshalBinary (fun s => s) New)).2.registers = New.registers ∧
     (UnmarshalBinary (fun s => Except.ok s) New (MarshalBinary (fun s => s) New)).2.alpha = New.alpha) :=
  ⟨fun _ => rfl,
   marshal_unmarshal_roundtrip (fun s => s) (fun s => Except.ok s) (fun _ => rfl) New New⟩

/-- C7: when the gob decoder rejects the input, `UnmarshalBinary` returns
that error and the receiver's state is exactly its pre-call state. -/
theorem unmarshal_error_frame {B : Type} (dec : B → Except String savedLLB)
    (llb : LogLogBeta) (data : B) (e : String)
    (h : dec data = Except.error e) :
    UnmarshalBinary dec llb data = (some e, llb) := by
  unfold UnmarshalBinary
  rw [h]

/-- Witness for C7: a decoder that always fails leaves `New` untouched and
surfaces the error. -/
theorem unmarshal_error_frame_witness :
    (fun _ : Unit => (Except.error "bad" : Except String savedLLB)) () = Except.error "bad" ∧
    UnmarshalBinary (fun _ : Unit => Except.error "bad") New () = (some "bad", New) :=
  ⟨rfl, unmarshal_error_frame (fun _ : Unit => Except.error "bad") New () "bad" rfl⟩

/-- C5: for every 64-bit hash `x`, `getPosVal` returns the index
`x >> (64 - precision)` (with `precision = 14`), an integer below
`m = 2^14`, and the rank `1 + clz((x << precision) ^^^ maxX)`, which lies
in `[1, 64 - precision + 1] = [1, 51]`. -/
theorem getPosVal_spec (x : Nat) (hx : x < 2 ^ 64) :
    precision = 14 ∧ m = 2 ^ 14 ∧
    (getPosVal x).1 = x >>> (64 - precision) ∧
    (getPosVal x).1 < m ∧
    (getPosVal x).2 = clz64 ((x <<< precision) % 2 ^ 64 ^^^ maxX) + 1 ∧
    1 ≤ (getPosVal x).2 ∧ (getPosVal x).2 ≤ 51 := by
  refine ⟨rfl, by decide, ?_, getPosVal_fst_lt x, ?_, ?_, getPosVal_snd_le x⟩
  · unfold getPosVal
    dsimp only
    rw [Nat.mod_eq_of_lt hx]
  · unfold getPosVal
    dsimp only
    rw [Nat.mod_eq_of_lt hx]
  · unfold getPosVal
    dsimp only
    exact Nat.le_add_left 1 _

/-- Witness for C5 at the concrete hash 0: index 0 and rank 51. -/
theorem getPosVal_spec_witness :
    (0 : Nat) < 2 ^ 64 ∧
    (precision = 14 ∧ m = 2 ^ 14 ∧
     (getPosVal 0).1 = 0 >>> (64 - precision) ∧
     (getPosVal 0).1 < m ∧
     (getPosVal 0).2 = clz64 ((0 <<< precision) % 2 ^ 64 ^^^ maxX) + 1 ∧
     1 ≤ (getPosVal 0).2 ∧ (getPosVal 0).2 ≤ 51) :=
  ⟨by norm_num, getPosVal_spec 0 (by norm_num)⟩

/-- C8: `AddHash` is total for every input hash: the computed register
index is always strictly below `m = 16384`, so the register access is in
bounds, and the update performed is exactly
`registers[index] = max(registers[index], rank)` — no failure path exists.
(`Add`, `Cardinality`, and `Merge` are likewise total by construction:
each is a function defined on all of its domain.) -/
theorem addHash_total (llb : LogLogBeta) (x : Nat) (i : Fin m) :
    (getPosVal x).1 < 16384 ∧
    (AddHash llb x).registers i =
      (if (i : Nat) = (getPosVal x).1 then
        max (llb.registers i) ((getPosVal x).2)
      else llb.registers i) := by
  refine ⟨m_eq ▸ getPosVal_fst_lt x, ?_⟩
  unfold AddHash
  dsimp only
  split_ifs <;> omega

/-- C9 counterexample: `UnmarshalBinary` overwrites `alpha` with the
decoded value, so a decode whose payload carries `Alpha = 0` changes the
receiver's alpha away from the construction-time constant. -/
theorem unmarshal_changes_alpha :
    (UnmarshalBinary (fun _ : Unit => Except.ok ⟨fun _ => 0, 0, version⟩)
        New ()).2.alpha ≠ New.alpha := by
  show (0 : ℝ) ≠ New.alpha
  unfold New alpha
  have hm : ((m : Nat) : ℝ) = 16384 := by norm_num [m_eq]
  rw [hm]
  norm_num

/-- C9 amended: `New` sets `alpha` to the asymptotic formula
`0.7213 / (1 + 1.079 / m)` at `m = 16384`, and `alpha` is unchanged by
`AddHash`, `Add`, and `Merge` (while `Cardinality` and `MarshalBinary` only
read the sketch); `UnmarshalBinary`, however, replaces `alpha` with the
deserialized value. -/
theorem alpha_fixed_after_construction :
    New.alpha = 0.7213 / (1 + 1.079 / 16384) ∧
    (∀ llb x, (AddHash llb x).alpha = llb.alpha) ∧
    (∀ hash llb value, (Add hash llb value).alpha = llb.alpha) ∧
    (∀ A B, (Merge A B).alpha = A.alpha) := by
  refine ⟨?_, fun _ _ => rfl, fun _ _ _ => rfl, fun _ _ => rfl⟩
  unfold New alpha
  have hm : ((m : Nat) : ℝ) = 16384 := by norm_num [m_eq]
  rw [hm]
  norm_num

/-- C1: `Cardinality` computes exactly the specification's estimator:
`floor(alpha * m * (m - ez) / (beta(ez) + sum))` truncated to an unsigned
integer, with `m = 16384`, `sum = Σ 2^(-registers[i])`, `ez` the number of
zero registers, and `beta` the degree-7 polynomial in `ez` and
`zl = ln(ez + 1)` with the eight fixed coefficients. -/
theorem cardinality_eq_spec (llb : LogLogBeta) :
    Cardinality llb = cardinalitySpec llb := by
  unfold Cardinality cardinalitySpec regSumAndZeros beta
  dsimp only
  have hs : (∑ i, 1 / (2 : ℝ) ^ (llb.registers i)) =
      ∑ i, (2 : ℝ) ^ (-(llb.registers i : ℤ)) :=
    Finset.sum_congr rfl fun i _ => by rw [zpow_neg, zpow_natCast, one_div]
  have hm : ((m : Nat) : ℝ) = 16384 := by norm_num [m_eq]
  rw [hs, hm]

/-- C6: a sketch whose registers are all zero (so `ez = m`) has
cardinality exactly 0: the numerator `alpha * m * (m - ez)` vanishes. -/
theorem cardinality_empty (llb : LogLogBeta) (h : ∀ i, llb.registers i = 0) :
    Cardinality llb = 0 := by
  have hez : (regSumAndZeros llb.registers).2 = ((m : Nat) : ℝ) := by
    unfold regSumAndZeros
    dsimp only
    rw [Finset.filter_true_of_mem (fun i _ => h i), Finset.card_univ,
      Fintype.card_fin]
  unfold Cardinality
  rw [hez, sub_self, mul_zero, zero_div, Int.floor_zero]
  rfl

/-- Witness for C6: the freshly constructed sketch is empty and its
cardinality evaluates to 0. -/
theorem cardinality_empty_witness :
    (∀ i, New.registers i = 0) ∧ Cardinality New = 0 :=
  ⟨fun _ => rfl, cardinality_empty New fun _ => rfl⟩

end Loglogbeta
